import Mathlib

/-!
Verification of the hono-mcp-server core against its design notes.

The development shallowly embeds the functional core of the repository:
the cache-aside fetcher `fetchHonoDocs`, the line-oriented documentation
search of the search-hono-docs tool, the heading/slug extraction of the
list-sections tool, the pagination of the get-hono-page tool (paginated
variant), and the text produced by the arithmetic tools.

Text handled by the doc tools is modelled as `List Char`; where UTF-16
code-unit indexing of JavaScript strings matters (pagination slicing),
the slice operation is stated polymorphically and instantiated at
`List Nat` (lists of UTF-16 code units).
-/

/-! ## Cache-aside fetcher (fetchHonoDocs)

The platform cache is modelled as an association list from URL to the
stored body; the origin is a function from URL to a response with an
`ok` flag and a body, mirroring `fetch` plus `response.ok`.
`originCalls` counts how often the origin was contacted in one call.
-/

structure OriginResp where
  ok : Bool
  body : String

abbrev Cache := List (String × String)

def cacheLookup : Cache → String → Option String
  | [], _ => none
  | (k, v) :: rest, url => if k = url then some v else cacheLookup rest url

structure FetchResult where
  text : String
  cache : Cache
  originCalls : Nat

/-- Model of `fetchHonoDocs`: try the cache; on miss fetch from the
origin and, only when the response is ok, put the body into the cache.
The (possibly failed) response body is returned either way. -/
def fetchHonoDocs (origin : String → OriginResp) (cache : Cache) (url : String) :
    FetchResult :=
  match cacheLookup cache url with
  | some body => ⟨body, cache, 0⟩
  | none =>
    let resp := origin url
    if resp.ok then ⟨resp.body, (url, resp.body) :: cache, 1⟩
    else ⟨resp.body, cache, 1⟩

/-- Every entry of the cache stems from a successful origin response. -/
def CacheOK (origin : String → OriginResp) (cache : Cache) : Prop :=
  ∀ u b, cacheLookup cache u = some b → (origin u).ok = true ∧ b = (origin u).body

/-- Run a sequence of fetch calls, threading the cache. -/
def runFetches (origin : String → OriginResp) : List String → Cache → Cache
  | [], cache => cache
  | url :: rest, cache => runFetches origin rest (fetchHonoDocs origin cache url).cache

/-! ## Pagination (get-hono-page, paginated variant)

`md.slice(offset, offset + maxChars)` together with
`nextOffset = offset + maxChars < totalChars ? offset + maxChars : null`.
Stated over an arbitrary element type: the tool applies it to a
JavaScript string, i.e. a sequence of UTF-16 code units. -/

def paginate {α : Type} (md : List α) (offset maxChars : Nat) :
    List α × Option Nat :=
  ((md.drop offset).take maxChars,
    if offset + maxChars < md.length then some (offset + maxChars) else none)

/-- The continuation notice appended when `nextOffset` is non-null:
`\n\n--- Page truncated at X/Y chars. Use offset=Z to continue. ---`. -/
def noticeText (upto total nxt : Nat) : List Char :=
  ("\n\n--- Page truncated at ").toList ++ (toString upto).toList ++
    ("/").toList ++ (toString total).toList ++
    (" chars. Use offset=").toList ++ (toString nxt).toList ++
    (" to continue. ---").toList

/-- The text returned by the get-hono-page tool for one page. -/
def pageText (md : List Char) (offset maxChars : Nat) : List Char :=
  let p := paginate md offset maxChars
  match p.2 with
  | none => p.1
  | some nxt => p.1 ++ noticeText (offset + maxChars) md.length nxt

/-- All pages obtained by starting at offset 0 and following
`nextOffset` until it is null; `fuel` bounds the recursion and is
instantiated so that it never runs out for positive `maxChars`. -/
def pagesAux (md : List Char) (maxChars : Nat) : Nat → Nat → List (List Char)
  | 0, _ => []
  | fuel + 1, offset =>
    match (paginate md offset maxChars).2 with
    | none => [(paginate md offset maxChars).1]
    | some nxt => (paginate md offset maxChars).1 :: pagesAux md maxChars fuel nxt

def pages (md : List Char) (maxChars : Nat) : List (List Char) :=
  pagesAux md maxChars (md.length + 1) 0

/-! ## Text search (search-hono-docs)

The tool splits the fetched index text on `\n`, lower-cases query and
line for the containment test, extracts the first parenthesised path
token that begins with `/docs` (regex `\((\/docs[^)]+)\)`), and stops
as soon as `limit` results are collected; the loop checks
`results.length >= limit` at the top of each iteration. -/

def lowerList (l : List Char) : List Char := l.map Char.toLower

/-- Tests whether `needle` starts `hay` (element-wise). -/
def startsWith : List Char → List Char → Bool
  | [], _ => true
  | _ :: _, [] => false
  | a :: as, b :: bs => a == b && startsWith as bs

/-- JavaScript `String.includes`: contiguous substring containment. -/
def containsSub (needle : List Char) : List Char → Bool
  | [] => startsWith needle []
  | c :: rest => startsWith needle (c :: rest) || containsSub needle rest

/-- JavaScript `"...".split("\n")`. -/
def splitOnNl : List Char → List (List Char)
  | [] => [[]]
  | c :: rest =>
    if c = '\n' then [] :: splitOnNl rest
    else
      match splitOnNl rest with
      | [] => [[c]]
      | l :: ls => (c :: l) :: ls

/-- A match of `\((\/docs[^)]+)\)` anchored at the head of the list:
a literal `(`, then `/docs`, then one or more non-`)` characters, then
`)`; returns capture group 1. -/
def docsTokenAt (l : List Char) : Option (List Char) :=
  match l with
  | '(' :: '/' :: 'd' :: 'o' :: 'c' :: 's' :: rest =>
    let run := rest.takeWhile (fun c => c != ')')
    if 1 ≤ run.length then
      match rest.drop run.length with
      | ')' :: _ => some ('/' :: 'd' :: 'o' :: 'c' :: 's' :: run)
      | _ => none
    else none
  | _ => none

/-- First match of `\((\/docs[^)]+)\)` in the line (leftmost start). -/
def findDocsToken : List Char → Option (List Char)
  | [] => none
  | c :: rest =>
    match docsTokenAt (c :: rest) with
    | some t => some t
    | none => findDocsToken rest

/-- JavaScript whitespace class `\s` (also the WhiteSpace and
LineTerminator sets used by `String.trim`). -/
def isJsWs (c : Char) : Bool :=
  c == ' ' || c == '\t' || c == '\n' || c == '\x0b' || c == '\x0c' ||
    c == '\r' || c == ' ' || c == ' ' ||
    (0x2000 ≤ c.toNat && c.toNat ≤ 0x200A) ||
    c == ' ' || c == ' ' || c == ' ' || c == ' ' ||
    c == '　' || c == '﻿'

/-- JavaScript `String.trim`: whitespace stripped from both ends. -/
def jsTrim (l : List Char) : List Char :=
  ((l.dropWhile isJsWs).reverse.dropWhile isJsWs).reverse

structure SearchResult where
  title : List Char
  path : List Char
  url : List Char

def mkResult (line tok : List Char) : SearchResult :=
  ⟨jsTrim line, tok, ("https://hono.dev").toList ++ tok⟩

/-- One line of the scan: it yields a result exactly when the line
case-insensitively contains the query and carries a `/docs` token. -/
def searchHit (q line : List Char) : Option SearchResult :=
  if containsSub (lowerList q) (lowerList line) then
    (findDocsToken line).map (mkResult line)
  else none

/-- The scan loop of the search-hono-docs handler: `count` is the
current `results.length`; the loop breaks when it reaches `limit`
(checked before each line), pushes a result for qualifying lines, and
silently skips matching lines without a `/docs` token. -/
def searchScan (q : List Char) (limit : Int) : Nat → List (List Char) → List SearchResult
  | _, [] => []
  | count, line :: rest =>
    if limit ≤ (count : Int) then []
    else
      match searchHit q line with
      | some r => r :: searchScan q limit (count + 1) rest
      | none => searchScan q limit count rest

def noResultsMsg (q : List Char) : List Char :=
  ("No documentation results found for \"").toList ++ q ++ ("\".").toList

/-- Renders results as numbered `title — url` lines joined with newlines. -/
def renderResults (rs : List SearchResult) : List Char :=
  List.intercalate ['\n']
    (rs.enum.map fun p =>
      (toString (p.1 + 1)).toList ++ (". ").toList ++ p.2.title ++
        (" — ").toList ++ p.2.url)

/-- The text produced by the search-hono-docs handler from the fetched
index text. -/
def searchToolText (text q : List Char) (limit : Int) : List Char :=
  let results := searchScan q limit 0 (splitOnNl text)
  if results.length = 0 then noResultsMsg q else renderResults results

/-! ## Section extraction (list-sections)

A heading line matches `^(#{2,6})\s+(.+)`; the level is the hash-run
length, the title is the trimmed capture group 2, and the anchor is
`#` followed by
`title.toLowerCase().replace(/[^a-z0-9\s-]/g, "").trim().replace(/\s+/g, "-")`.
-/

/-- JavaScript regex line terminators (the characters `.` refuses). -/
def isLineTerm (c : Char) : Bool :=
  c == '\n' || c == '\r' || c.toNat == 0x2028 || c.toNat == 0x2029

/-- Attempt `(.+)` after `\s+` has consumed exactly `j` characters of
`rest`: the character at index `j` must exist and not be a line
terminator; the capture is the maximal run of non-terminators there. -/
def titleAt (rest : List Char) (j : Nat) : Option (List Char) :=
  match rest.drop j with
  | [] => none
  | c :: cs =>
    if isLineTerm c then none
    else some (c :: cs.takeWhile (fun x => !(isLineTerm x)))

/-- Backtracking search for `\s+(.+)`: `\s+` prefers the maximal
whitespace run of length `m` and gives characters back one at a time,
but must keep at least one. -/
def searchTitle (rest : List Char) : Nat → Option (List Char)
  | 0 => none
  | j + 1 =>
    match titleAt rest (j + 1) with
    | some t => some t
    | none => searchTitle rest j

/-- Match `\s+(.+)` at the head of `rest`, returning capture group 2. -/
def matchTitle (rest : List Char) : Option (List Char) :=
  searchTitle rest (rest.takeWhile isJsWs).length

/-- Characters the slug keeps: the class `[a-z0-9\s-]`. -/
def isSlugChar (c : Char) : Bool :=
  ('a' ≤ c && c ≤ 'z') || ('0' ≤ c && c ≤ '9') || isJsWs c || c == '-'

/-- Models `replace` of each maximal whitespace run by a
single hyphen; `inRun` records whether the previous character was
whitespace (so the run has already produced its hyphen). -/
def collapseWsAux : Bool → List Char → List Char
  | _, [] => []
  | inRun, c :: rest =>
    if isJsWs c then (if inRun then [] else ['-']) ++ collapseWsAux true rest
    else c :: collapseWsAux false rest

/-- The slug pipeline exactly as the handler computes it:
`toLowerCase`, strip `[^a-z0-9\s-]`, `trim`, collapse `\s+` to `-`. -/
def slug (t : List Char) : List Char :=
  collapseWsAux false (jsTrim ((t.map Char.toLower).filter isSlugChar))

structure Heading where
  level : Nat
  title : List Char
  anchor : List Char

def mkHeading (n : Nat) (grp : List Char) : Heading :=
  ⟨n, jsTrim grp, '#' :: slug (jsTrim grp)⟩

/-- Match one line against `^(#{2,6})\s+(.+)`: the hash run must have
length 2..6 (a longer run leaves `#` where `\s` is required, so it
cannot match), then `\s+(.+)` must match the remainder. -/
def extractHeading (line : List Char) : Option Heading :=
  let n := (line.takeWhile (fun c => c == '#')).length
  if 2 ≤ n ∧ n ≤ 6 then (matchTitle (line.drop n)).map (mkHeading n)
  else none

def extractSections (md : List Char) : List Heading :=
  (splitOnNl md).filterMap extractHeading

def noSectionsMsg (path : List Char) : List Char :=
  ("No sections found in ").toList ++ path ++ (".").toList

/-- Renders an outline line: two spaces of indent per level above 2,
then the title and the parenthesised anchor. -/
def renderSections (hs : List Heading) : List Char :=
  List.intercalate ['\n']
    (hs.map fun h =>
      (List.replicate (h.level - 2) ("  ").toList).flatten ++
        ("- ").toList ++ h.title ++ (" (").toList ++ h.anchor ++ [')'])

def listSectionsText (md path : List Char) : List Char :=
  let sections := extractSections md
  if sections.length = 0 then noSectionsMsg path else renderSections sections

/-! ### Spec-side formulation of the slug pipeline

`specSlug` follows the spec text: lower-case the title, strip every
character outside `[a-z0-9\s-]`, trim, and collapse internal
whitespace runs to single hyphens, here phrased as: split the trimmed
text into maximal non-whitespace words and rejoin them with `-`. -/

def splitWordsAux : List Char → List Char → List (List Char)
  | cur, [] => if cur.length = 0 then [] else [cur.reverse]
  | cur, c :: rest =>
    if isJsWs c then
      (if cur.length = 0 then [] else [cur.reverse]) ++ splitWordsAux [] rest
    else splitWordsAux (c :: cur) rest

/-- The maximal non-whitespace words of `l`, in order. -/
def splitWords (l : List Char) : List (List Char) := splitWordsAux [] l

def joinWords : List (List Char) → List Char
  | [] => []
  | [w] => w
  | w :: ws => w ++ '-' :: joinWords ws

def specSlug (t : List Char) : List Char :=
  joinWords (splitWords (jsTrim ((t.map Char.toLower).filter isSlugChar)))

/-! ## Tool handlers at the fetch boundary

Each handler is modelled as a function of the outcome of
`await fetchHonoDocs(...)`: `Except.ok text` for a resolved fetch and
`Except.error e` for a rejected one.  get-hono-page and list-sections
wrap the await in try/catch and turn a rejection into an ok-shaped
textual message; the search-hono-docs handler has no try/catch, so a
rejection propagates out of it unchanged. -/

def couldNotRetrieve (normalizedPath : List Char) (e : String) : List Char :=
  ("Could not retrieve documentation for ").toList ++ normalizedPath ++
    (". Error: ").toList ++ e.toList

/-- search-hono-docs handler: no try/catch around the await. -/
def searchHandler (fetched : Except String (List Char)) (q : List Char)
    (limit : Int) : Except String (List Char) :=
  match fetched with
  | Except.ok text => Except.ok (searchToolText text q limit)
  | Except.error e => Except.error e

/-- get-hono-page handler (non-paginated variant): try/catch around the
await converts a rejection into an ok-shaped error message. -/
def getPageHandler (fetched : Except String (List Char))
    (normalizedPath : List Char) : Except String (List Char) :=
  match fetched with
  | Except.ok md => Except.ok md
  | Except.error e => Except.ok (couldNotRetrieve normalizedPath e)

/-- list-sections handler: try/catch around the await. -/
def listSectionsHandler (fetched : Except String (List Char))
    (normalizedPath : List Char) : Except String (List Char) :=
  match fetched with
  | Except.ok md => Except.ok (listSectionsText md normalizedPath)
  | Except.error e => Except.ok (couldNotRetrieve normalizedPath e)

/-! ## Arithmetic tools

`${a} + ${b} = ${result}` and `${a} × ${b} = ${result}`; the variant
in `src/unnamed/part_001` carries the bytes U+00C3 U+2014 where the
other two files have the multiplication sign U+00D7. -/

def addText (a b : Int) : String :=
  toString a ++ " + " ++ toString b ++ " = " ++ toString (a + b)

def multiplyText (a b : Int) : String :=
  toString a ++ " × " ++ toString b ++ " = " ++ toString (a * b)

/-- The multiply handler of the `src/unnamed/part_001` variant, whose
template literal contains the mojibake sequence U+00C3 U+2014. -/
def multiplyTextVariant (a b : Int) : String :=
  toString a ++ " Ã— " ++ toString b ++ " = " ++ toString (a * b)

/-! ## UTF-16 code units

JavaScript strings are sequences of UTF-16 code units and
`String.slice` indexes them; a supplementary-plane character occupies
a high surrogate followed by a low surrogate. -/

def isHighSurrogate (u : Nat) : Bool := 0xD800 ≤ u && u ≤ 0xDBFF

def isLowSurrogate (u : Nat) : Bool := 0xDC00 ≤ u && u ≤ 0xDFFF

/-- Cutting a unit sequence at position `i` splits a character exactly
when a high surrogate at `i - 1` is followed by its low surrogate at
`i`. -/
def boundarySplitsChar (units : List Nat) : Nat → Bool
  | 0 => false
  | j + 1 =>
    match units.get? j, units.get? (j + 1) with
    | some a, some b => isHighSurrogate a && isLowSurrogate b
    | _, _ => false

/-- Sample text: 999 single-unit characters followed by U+1F600, whose UTF-16
encoding is the surrogate pair D83D DE00. -/
def exUnits : List Nat := List.replicate 999 0x61 ++ [0xD83D, 0xDE00]

/-- The first character (if any) is whitespace. -/
def leadWs : List Char → Bool
  | [] => false
  | c :: _ => isJsWs c

/-- The last character (if any) is whitespace. -/
def trailWs (l : List Char) : Bool := leadWs l.reverse

/-- A fixed origin used by concrete witnesses: one URL answers
successfully, every other URL fails. -/
def originA : String → OriginResp := fun u =>
  if u = "https://hono.dev/llms.txt" then ⟨true, "INDEX"⟩
  else ⟨false, "Not Found"⟩

/-! ### Helper lemmas on pagination -/

theorem pagesAux_succ (md : List Char) (maxChars fuel offset : Nat) :
    pagesAux md maxChars (fuel + 1) offset =
      match (paginate md offset maxChars).2 with
      | none => [(paginate md offset maxChars).1]
      | some nxt => (paginate md offset maxChars).1 :: pagesAux md maxChars fuel nxt :=
  rfl

theorem pagesAux_join (md : List Char) (maxChars : Nat) (hm : 0 < maxChars) :
    ∀ fuel offset, md.length - offset < fuel →
      (pagesAux md maxChars fuel offset).flatten = md.drop offset := by
  intro fuel
  induction fuel with
  | zero => intro offset h; omega
  | succ fuel ih =>
    intro offset h
    rw [pagesAux_succ]
    by_cases hlt : offset + maxChars < md.length
    · have h2 : md.length - (offset + maxChars) < fuel := by omega
      simp only [paginate, if_pos hlt, List.flatten_cons, ih (offset + maxChars) h2]
      rw [← List.drop_drop maxChars offset md, List.take_append_drop]
    · simp only [paginate, if_neg hlt, List.flatten_cons, List.flatten_nil, List.append_nil]
      apply List.take_of_length_le
      rw [List.length_drop]
      omega


/-! ### Cache-aside fetcher lemmas -/

theorem fetch_hit (origin : String → OriginResp) (cache : Cache) (url : String)
    (b : String) (h : cacheLookup cache url = some b) :
    fetchHonoDocs origin cache url = ⟨b, cache, 0⟩ := by
  simp only [fetchHonoDocs, h]

theorem fetch_miss_ok (origin : String → OriginResp) (cache : Cache) (url : String)
    (h : cacheLookup cache url = none) (hok : (origin url).ok = true) :
    fetchHonoDocs origin cache url =
      ⟨(origin url).body, (url, (origin url).body) :: cache, 1⟩ := by
  simp only [fetchHonoDocs, h, hok, if_pos]

theorem fetch_miss_fail (origin : String → OriginResp) (cache : Cache) (url : String)
    (h : cacheLookup cache url = none) (hok : (origin url).ok = false) :
    fetchHonoDocs origin cache url = ⟨(origin url).body, cache, 1⟩ := by
  simp only [fetchHonoDocs, h, hok]
  simp

theorem cacheOK_preserve (origin : String → OriginResp) (cache : Cache) (url : String)
    (h : CacheOK origin cache) :
    CacheOK origin (fetchHonoDocs origin cache url).cache := by
  cases hc : cacheLookup cache url with
  | some body => rw [fetch_hit origin cache url body hc]; exact h
  | none =>
    cases hok : (origin url).ok with
    | false => rw [fetch_miss_fail origin cache url hc hok]; exact h
    | true =>
      rw [fetch_miss_ok origin cache url hc hok]
      intro u b hub
      by_cases he : url = u
      · subst he
        simp [cacheLookup] at hub
        exact ⟨hok, hub.symm⟩
      · simp only [cacheLookup, if_neg he] at hub
        exact h u b hub

theorem cacheOK_nil (origin : String → OriginResp) : CacheOK origin [] := by
  intro u b hub
  simp [cacheLookup] at hub

theorem cacheOK_run (origin : String → OriginResp) :
    ∀ (urls : List String) (cache : Cache), CacheOK origin cache →
      CacheOK origin (runFetches origin urls cache) := by
  intro urls
  induction urls with
  | nil => intro cache h; exact h
  | cons url rest ih =>
    intro cache h
    exact ih _ (cacheOK_preserve origin cache url h)

/-- C2: the cache only ever contains entries whose original upstream
response was successful: a failed upstream fetch performs no cache
write (the cache is unchanged and the next call for the same URL
misses and contacts the origin again); starting from the empty cache,
any sequence of calls preserves this; and a cache hit serves a
previously-successful entry. -/
theorem fetch_cache_invariant (origin : String → OriginResp) (cache : Cache)
    (url : String) :
    ((origin url).ok = false → (fetchHonoDocs origin cache url).cache = cache) ∧
    ((origin url).ok = false → cacheLookup cache url = none →
      (fetchHonoDocs origin (fetchHonoDocs origin cache url).cache url).originCalls = 1) ∧
    (CacheOK origin cache → CacheOK origin (fetchHonoDocs origin cache url).cache) ∧
    (∀ urls : List String, CacheOK origin (runFetches origin urls [])) ∧
    (∀ b, CacheOK origin cache → cacheLookup cache url = some b →
      (fetchHonoDocs origin cache url).text = b ∧ (origin url).ok = true ∧
        (fetchHonoDocs origin cache url).originCalls = 0) := by
  have hnowrite : (origin url).ok = false →
      (fetchHonoDocs origin cache url).cache = cache := by
    intro hfail
    cases hc : cacheLookup cache url with
    | some body => rw [fetch_hit origin cache url body hc]
    | none => rw [fetch_miss_fail origin cache url hc hfail]
  refine ⟨hnowrite, ?_, cacheOK_preserve origin cache url, ?_, ?_⟩
  · intro hfail hnone
    rw [hnowrite hfail, fetch_miss_fail origin cache url hnone hfail]
  · intro urls
    exact cacheOK_run origin urls [] (cacheOK_nil origin)
  · intro b hOK hhit
    rw [fetch_hit origin cache url b hhit]
    exact ⟨rfl, (hOK url b hhit).1, rfl⟩

theorem fetch_cache_invariant_witness :
    (fetchHonoDocs originA [] "https://hono.dev/bad").cache = [] ∧
    (fetchHonoDocs originA
      (fetchHonoDocs originA [] "https://hono.dev/bad").cache
      "https://hono.dev/bad").originCalls = 1 ∧
    (fetchHonoDocs originA [("https://hono.dev/llms.txt", "INDEX")]
      "https://hono.dev/llms.txt").text = "INDEX" := by
  have hOK1 : CacheOK originA [("https://hono.dev/llms.txt", "INDEX")] := by
    intro u b hub
    by_cases he : "https://hono.dev/llms.txt" = u
    · subst he
      simp [cacheLookup] at hub
      subst hub
      exact ⟨by decide, by decide⟩
    · simp only [cacheLookup, if_neg he] at hub
      simp [cacheLookup] at hub
  have h1 := fetch_cache_invariant originA [] "https://hono.dev/bad"
  have h2 := fetch_cache_invariant originA
    [("https://hono.dev/llms.txt", "INDEX")] "https://hono.dev/llms.txt"
  exact ⟨h1.1 (by decide), h1.2.1 (by decide) rfl,
    (h2.2.2.2.2 "INDEX" hOK1 rfl).1⟩

/-- C6: for a URL whose origin response is stable and successful, two
sequential fetchHonoDocs calls return identical text, the second call
contacts the origin zero times, and it is answered from the cache
entry written by the first call. -/
theorem fetch_idempotent (origin : String → OriginResp) (cache : Cache)
    (url : String) (hok : (origin url).ok = true)
    (hmiss : cacheLookup cache url = none) :
    (fetchHonoDocs origin cache url).text =
      (fetchHonoDocs origin (fetchHonoDocs origin cache url).cache url).text ∧
    (fetchHonoDocs origin (fetchHonoDocs origin cache url).cache url).originCalls = 0 ∧
    cacheLookup (fetchHonoDocs origin cache url).cache url =
      some (fetchHonoDocs origin cache url).text := by
  rw [fetch_miss_ok origin cache url hmiss hok]
  have hl : cacheLookup ((url, (origin url).body) :: cache) url =
      some (origin url).body := by
    simp [cacheLookup]
  rw [fetch_hit origin _ url _ hl]
  exact ⟨rfl, rfl, hl⟩

theorem fetch_idempotent_witness :
    (fetchHonoDocs originA [] "https://hono.dev/llms.txt").text =
      (fetchHonoDocs originA
        (fetchHonoDocs originA [] "https://hono.dev/llms.txt").cache
        "https://hono.dev/llms.txt").text ∧
    (fetchHonoDocs originA
      (fetchHonoDocs originA [] "https://hono.dev/llms.txt").cache
      "https://hono.dev/llms.txt").originCalls = 0 ∧
    cacheLookup (fetchHonoDocs originA [] "https://hono.dev/llms.txt").cache
      "https://hono.dev/llms.txt" =
      some (fetchHonoDocs originA [] "https://hono.dev/llms.txt").text :=
  fetch_idempotent originA [] "https://hono.dev/llms.txt" (by decide) rfl

/-- C3: pagination round-trip: for every text and every maxChars > 0,
concatenating the slices produced at offsets 0, maxChars, 2*maxChars,
... (following nextOffset, notices stripped) reconstructs the text
exactly; and nextOffset is null iff offset + maxChars >= length,
otherwise it equals offset + maxChars. -/
theorem pagination_round_trip (md : List Char) (maxChars : Nat)
    (hm : 0 < maxChars) :
    (pages md maxChars).flatten = md ∧
    ∀ offset : Nat,
      ((paginate md offset maxChars).2 = none ↔ md.length ≤ offset + maxChars) ∧
      (offset + maxChars < md.length →
        (paginate md offset maxChars).2 = some (offset + maxChars)) := by
  constructor
  · have h := pagesAux_join md maxChars hm (md.length + 1) 0 (by omega)
    simpa [pages] using h
  · intro offset
    constructor
    · simp only [paginate]
      by_cases hlt : offset + maxChars < md.length
      · simp [hlt]
      · simp [hlt]
        omega
    · intro hlt
      simp [paginate, hlt]

theorem pagination_round_trip_witness :
    (pages ("abcdefgh").toList 3).flatten = ("abcdefgh").toList ∧
    ∀ offset : Nat,
      ((paginate ("abcdefgh").toList offset 3).2 = none ↔
        ("abcdefgh").toList.length ≤ offset + 3) ∧
      (offset + 3 < ("abcdefgh").toList.length →
        (paginate ("abcdefgh").toList offset 3).2 = some (offset + 3)) :=
  pagination_round_trip ("abcdefgh").toList 3 (by decide)

/-- C10: pagination is total beyond the end of the document: for every
offset at or past the text length (and any maxChars) the slice is
empty, nextOffset is null, and the returned page text is empty, with
no continuation notice appended. -/
theorem pagination_beyond_end (md : List Char) (offset maxChars : Nat)
    (h : md.length ≤ offset) :
    paginate md offset maxChars = ([], none) ∧ pageText md offset maxChars = [] := by
  have hdrop : md.drop offset = [] := List.drop_eq_nil_of_le h
  have hp : paginate md offset maxChars = ([], none) := by
    simp only [paginate, hdrop, List.take_nil]
    rw [if_neg (by omega)]
  refine ⟨hp, ?_⟩
  simp only [pageText, hp]

theorem pagination_beyond_end_witness :
    paginate ("abc").toList 5 2 = ([], none) ∧ pageText ("abc").toList 5 2 = [] :=
  pagination_beyond_end ("abc").toList 5 2 (by decide)

/-- C5 (amended): the pagination slice is positional on the underlying
sequence of UTF-16 code units, decomposing the text exactly at
positions offset and offset + maxChars. -/
theorem slice_code_unit_decomposition (units : List Nat) (offset maxChars : Nat) :
    units.take offset ++ (paginate units offset maxChars).1 ++
      units.drop (offset + maxChars) = units := by
  simp only [paginate]
  rw [List.append_assoc, ← List.drop_drop maxChars offset units,
    List.take_append_drop, List.take_append_drop]

set_option maxRecDepth 100000 in
/-- C5 (counterexample): on 999 one-unit characters followed by U+1F600
(surrogate pair D83D DE00), the slice boundary at offset 0 with
maxChars = 1000 falls between the high and the low surrogate: the page
ends with an unpaired high surrogate, splitting the character. -/
theorem slice_splits_surrogate_pair :
    boundarySplitsChar exUnits 1000 = true ∧
    (paginate exUnits 0 1000).1 = List.replicate 999 0x61 ++ [0xD83D] ∧
    (paginate exUnits 0 1000).2 = some 1000 := by
  refine ⟨?_, ?_, ?_⟩
  · decide
  · decide
  · decide

/-! ### Search lemmas -/

theorem searchScan_eq (q : List Char) (limit : Int) :
    ∀ (lines : List (List Char)) (count : Nat),
      searchScan q limit count lines =
        (lines.filterMap (searchHit q)).take (limit - count).toNat := by
  intro lines
  induction lines with
  | nil => intro count; simp [searchScan]
  | cons line rest ih =>
    intro count
    by_cases hle : limit ≤ (count : Int)
    · have hz : (limit - count).toNat = 0 := by omega
      simp only [searchScan, if_pos hle, hz, List.take_zero]
    · have hpos : (limit - (count : Int)).toNat = (limit - ((count : Int) + 1)).toNat + 1 := by
        omega
      cases hhit : searchHit q line with
      | some r =>
        simp only [searchScan, if_neg hle, hhit, List.filterMap_cons_some hhit,
          hpos, List.take_succ_cons, ih (count + 1)]
        norm_cast
      | none =>
        simp only [searchScan, if_neg hle, hhit, List.filterMap_cons_none hhit,
          ih count]

/-- C4: the scan visits lines in source order and equals taking the
first `limit` qualifying lines: a line yields a result only if it
case-insensitively contains the query and carries a parenthesised
`/docs` token (`searchHit`); matching lines without a token are skipped
without counting; the scan stops at `limit`, so with at least `limit`
qualifying lines it returns exactly `limit` results in line order. -/
theorem search_scan_correct (q : List Char) (limit : Int)
    (lines : List (List Char)) :
    searchScan q limit 0 lines = (lines.filterMap (searchHit q)).take limit.toNat ∧
    (limit.toNat ≤ (lines.filterMap (searchHit q)).length →
      (searchScan q limit 0 lines).length = limit.toNat) := by
  have h := searchScan_eq q limit lines 0
  simp only [Nat.cast_zero, Int.sub_zero] at h
  refine ⟨h, ?_⟩
  intro hK
  rw [h, List.length_take]
  omega

theorem search_scan_correct_witness :
    (searchScan ("hono").toList 2 0
      (splitOnNl ("- Hono guide (/docs/guide)\n- HONO api (/docs/api)\n- hono misc (/docs/misc)").toList)).length =
      (2 : Int).toNat :=
  (search_scan_correct ("hono").toList 2
    (splitOnNl ("- Hono guide (/docs/guide)\n- HONO api (/docs/api)\n- hono misc (/docs/misc)").toList)).2
    (by decide)

/-- C9: for every limit <= 0 the scan collects no results (the loop
breaks before examining any line), and the tool renders the
no-results message even when the index text contains matching lines. -/
theorem search_nonpositive_limit (text q : List Char) (limit : Int)
    (h : limit ≤ 0) :
    searchScan q limit 0 (splitOnNl text) = [] ∧
    searchToolText text q limit = noResultsMsg q := by
  have he : searchScan q limit 0 (splitOnNl text) = [] := by
    rw [searchScan_eq]
    have hz : (limit - ((0 : Nat) : Int)).toNat = 0 := by omega
    rw [hz, List.take_zero]
  refine ⟨he, ?_⟩
  simp [searchToolText, he]

theorem search_nonpositive_limit_witness :
    searchScan ("hono").toList 0 0 (splitOnNl ("Hono docs (/docs/top)").toList) = [] ∧
    searchToolText ("Hono docs (/docs/top)").toList ("hono").toList 0 =
      noResultsMsg ("hono").toList :=
  search_nonpositive_limit ("Hono docs (/docs/top)").toList ("hono").toList 0
    (by decide)

/-- C1 (code evaluated at the failing input): when the underlying fetch
rejects, get-hono-page and list-sections return an ok-shaped result
carrying a textual error message, but the search-hono-docs handler has
no try/catch, so the rejection propagates out of it unchanged —
refuting the claim that every consumer of the fetcher converts fetch
failures into success-shaped textual results. -/
theorem search_handler_propagates :
    searchHandler (Except.error "network failure") ("hono").toList 5 =
      Except.error "network failure" ∧
    getPageHandler (Except.error "network failure") ("/docs/api/context").toList =
      Except.ok (couldNotRetrieve ("/docs/api/context").toList "network failure") ∧
    listSectionsHandler (Except.error "network failure") ("/docs/api/context").toList =
      Except.ok (couldNotRetrieve ("/docs/api/context").toList "network failure") :=
  ⟨rfl, rfl, rfl⟩

/-- C8 (code evaluated at the failing input): add and the mainline
multiply produce the specified texts at (5, 3), but the multiply
handler of the src/unnamed/part_001 variant renders the mojibake
sequence U+00C3 U+2014 instead of the multiplication sign U+00D7, so
its text differs from the specified one. -/
theorem arithmetic_tool_text :
    addText 5 3 = "5 + 3 = 8" ∧
    multiplyText 5 3 = "5 × 3 = 15" ∧
    multiplyTextVariant 5 3 = "5 Ã— 3 = 15" ∧
    multiplyTextVariant 5 3 ≠ multiplyText 5 3 := by
  refine ⟨?_, ?_, ?_, ?_⟩ <;> decide

/-! ### Slug pipeline lemmas -/

theorem leadWs_append (a b : List Char) (h : a ≠ []) :
    leadWs (a ++ b) = leadWs a := by
  cases a with
  | nil => exact absurd rfl h
  | cons c rest => rfl

theorem trailWs_cons (c : Char) (rest : List Char) (h : rest ≠ []) :
    trailWs (c :: rest) = trailWs rest := by
  unfold trailWs
  rw [List.reverse_cons, leadWs_append _ _ (by simpa using h)]

theorem trailWs_append (a b : List Char) (h : b ≠ []) :
    trailWs (a ++ b) = trailWs b := by
  unfold trailWs
  rw [List.reverse_append, leadWs_append _ _ (by simpa using h)]

theorem trailWs_single (c : Char) : trailWs [c] = isJsWs c := rfl

theorem leadWs_eq_head (l : List Char) :
    leadWs l = match l.head? with
      | some c => isJsWs c
      | none => false := by
  cases l <;> rfl

theorem collapseWsAux_cons (inRun : Bool) (c : Char) (rest : List Char) :
    collapseWsAux inRun (c :: rest) =
      if isJsWs c then (if inRun then [] else ['-']) ++ collapseWsAux true rest
      else c :: collapseWsAux false rest := rfl

theorem collapse_all_notWs :
    ∀ l : List Char, (∀ x ∈ l, isJsWs x = false) → collapseWsAux false l = l := by
  intro l
  induction l with
  | nil => intro _; rfl
  | cons c rest ih =>
    intro h
    have hc : isJsWs c = false := h c (by simp)
    simp only [collapseWsAux, hc, Bool.false_eq_true, if_neg]
    rw [ih fun x hx => h x (by simp [hx])]
    simp

theorem collapse_word (d : Char) (hd : isJsWs d = true) :
    ∀ (w d' : List Char), (∀ x ∈ w, isJsWs x = false) →
      collapseWsAux false (w ++ d :: d') = w ++ '-' :: collapseWsAux true d' := by
  intro w
  induction w with
  | nil => intro d' _; simp [collapseWsAux, hd]
  | cons c w ih =>
    intro d' h
    have hc : isJsWs c = false := h c (by simp)
    rw [List.cons_append, collapseWsAux_cons, hc,
      ih d' fun x hx => h x (by simp [hx])]
    simp

theorem splitWords_cons_ws (c : Char) (rest : List Char) (hc : isJsWs c = true) :
    splitWords (c :: rest) = splitWords rest := by
  simp [splitWords, splitWordsAux, hc]

theorem splitWordsAux_acc :
    ∀ (rest cur : List Char), cur ≠ [] →
      splitWordsAux cur rest =
        (cur.reverse ++ rest.takeWhile (fun x => !(isJsWs x))) ::
          splitWords (rest.dropWhile (fun x => !(isJsWs x))) := by
  intro rest
  induction rest with
  | nil =>
    intro cur hcur
    have : cur.length ≠ 0 := by simpa using hcur
    simp [splitWordsAux, splitWords, this]
  | cons c rest ih =>
    intro cur hcur
    have hlen : cur.length ≠ 0 := by simpa using hcur
    by_cases hc : isJsWs c = true
    · have hp : (fun x => !(isJsWs x)) c = false := by simp [hc]
      simp only [splitWordsAux, hc, if_pos, hlen, if_neg, List.takeWhile_cons, hp,
        Bool.false_eq_true, List.dropWhile_cons, List.append_nil, List.singleton_append,
        splitWords_cons_ws c rest hc]
      simp [splitWords, splitWordsAux, hc]
    · have hc' : isJsWs c = false := by simpa using hc
      have hp : (fun x => !(isJsWs x)) c = true := by simp [hc']
      simp only [splitWordsAux, hc', Bool.false_eq_true, if_neg,
        List.takeWhile_cons, hp, if_pos, List.dropWhile_cons,
        ih (c :: cur) (by simp)]
      simp

theorem splitWords_cons_notWs (c : Char) (rest : List Char) (hc : isJsWs c = false) :
    splitWords (c :: rest) =
      (c :: rest.takeWhile (fun x => !(isJsWs x))) ::
        splitWords (rest.dropWhile (fun x => !(isJsWs x))) := by
  show splitWordsAux [] (c :: rest) = _
  simp only [splitWordsAux, hc, Bool.false_eq_true, if_neg]
  rw [splitWordsAux_acc rest [c] (by simp)]
  simp

theorem splitWords_ne_nil :
    ∀ l : List Char, l ≠ [] → trailWs l = false → splitWords l ≠ [] := by
  intro l
  induction l with
  | nil => intro hne _; exact absurd rfl hne
  | cons c rest ih =>
    intro _ ht
    by_cases hc : isJsWs c = true
    · have hne' : rest ≠ [] := by
        intro h
        subst h
        rw [trailWs_single, hc] at ht
        cases ht
      have ht' : trailWs rest = false := by
        rw [← trailWs_cons c rest hne']
        exact ht
      rw [splitWords_cons_ws c rest hc]
      exact ih hne' ht'
    · rw [splitWords_cons_notWs c rest (by simpa using hc)]
      simp

theorem dropWhile_head_false (p : Char → Bool) :
    ∀ (l : List Char) (d : Char) (d' : List Char),
      l.dropWhile p = d :: d' → p d = false := by
  intro l
  induction l with
  | nil => intro d d' h; cases h
  | cons c rest ih =>
    intro d d' h
    rw [List.dropWhile_cons] at h
    by_cases hp : p c = true
    · rw [if_pos hp] at h
      exact ih d d' h
    · rw [if_neg hp] at h
      cases h
      simpa using hp

theorem joinWords_cons₂ (w s : List Char) (ss : List (List Char)) :
    joinWords (w :: s :: ss) = w ++ '-' :: joinWords (s :: ss) := rfl

theorem collapseAux_splitWords :
    ∀ (n : Nat) (l : List Char), l.length ≤ n → trailWs l = false →
      collapseWsAux true l = joinWords (splitWords l) ∧
      collapseWsAux false l =
        (if leadWs l then ['-'] else []) ++ joinWords (splitWords l) := by
  intro n
  induction n with
  | zero =>
    intro l hl _
    have hnil : l = [] := by
      cases l with
      | nil => rfl
      | cons a b => simp at hl
    subst hnil
    constructor <;> simp [collapseWsAux, splitWords, splitWordsAux, joinWords, leadWs]
  | succ n ih =>
    intro l hl ht
    cases l with
    | nil =>
      constructor <;> simp [collapseWsAux, splitWords, splitWordsAux, joinWords, leadWs]
    | cons c rest =>
      by_cases hc : isJsWs c = true
      · have hne' : rest ≠ [] := by
          intro h
          subst h
          rw [trailWs_single, hc] at ht
          cases ht
        have ht' : trailWs rest = false := by
          rw [← trailWs_cons c rest hne']
          exact ht
        have hlen : rest.length ≤ n := by simp at hl; omega
        have IH := ih rest hlen ht'
        have hsw := splitWords_cons_ws c rest hc
        have hlead : leadWs (c :: rest) = true := by simp [leadWs, hc]
        constructor
        · rw [collapseWsAux_cons, if_pos hc, if_pos rfl, hsw, ← IH.1]
          simp
        · rw [collapseWsAux_cons, if_pos hc, if_neg (by simp), hsw, ← IH.1, hlead]
          simp
      · have hc' : isJsWs c = false := by simpa using hc
        have hlead : leadWs (c :: rest) = false := by simp [leadWs, hc']
        have hsw := splitWords_cons_notWs c rest hc'
        cases hdw : rest.dropWhile (fun x => !(isJsWs x)) with
        | nil =>
          have hall : ∀ x ∈ rest, isJsWs x = false := by
            intro x hx
            have := List.dropWhile_eq_nil_iff.mp hdw x hx
            simpa using this
          have htk : rest.takeWhile (fun x => !(isJsWs x)) = rest :=
            List.takeWhile_eq_self_iff.mpr (by intro x hx; simpa using hall x hx)
          have hcr : collapseWsAux false rest = rest := collapse_all_notWs rest hall
          rw [hdw, htk] at hsw
          have hsw2 : splitWords (c :: rest) = [c :: rest] := by
            rw [hsw]
            simp [splitWords, splitWordsAux]
          constructor
          · rw [collapseWsAux_cons, if_neg (by simp [hc']), hcr, hsw2]
            simp [joinWords]
          · rw [collapseWsAux_cons, if_neg (by simp [hc']), hcr, hsw2, hlead]
            simp [joinWords]
        | cons d d' =>
          have hd : isJsWs d = true := by
            have := dropWhile_head_false (fun x => !(isJsWs x)) rest d d' hdw
            simpa using this
          have hrest_eq : rest.takeWhile (fun x => !(isJsWs x)) ++ d :: d' = rest := by
            conv_rhs => rw [← List.takeWhile_append_dropWhile (fun x => !(isJsWs x)) rest]
            rw [hdw]
          have hne_rest : rest ≠ [] := by
            intro h
            subst h
            simp at hdw
          have ht_rest : trailWs rest = false := by
            rw [← trailWs_cons c rest hne_rest]
            exact ht
          have hd'_ne : d' ≠ [] := by
            intro h
            subst h
            have h1 : trailWs rest = trailWs [d] := by
              rw [← hrest_eq]
              exact trailWs_append _ _ (by simp)
            rw [trailWs_single] at h1
            rw [h1, hd] at ht_rest
            cases ht_rest
          have ht_d' : trailWs d' = false := by
            have h1 : trailWs rest = trailWs (d :: d') := by
              rw [← hrest_eq]
              exact trailWs_append _ _ (by simp)
            rw [trailWs_cons d d' hd'_ne] at h1
            rw [← h1]
            exact ht_rest
          have hlen_d' : d'.length ≤ n := by
            have h3 := congrArg List.length hrest_eq
            simp at h3 hl
            omega
          have IH := ih d' hlen_d' ht_d'
          obtain ⟨s, ss, hSS⟩ : ∃ s ss, splitWords d' = s :: ss := by
            cases hS2 : splitWords d' with
            | nil => exact absurd hS2 (splitWords_ne_nil d' hd'_ne ht_d')
            | cons s ss => exact ⟨s, ss, rfl⟩
          have hw_all : ∀ x ∈ rest.takeWhile (fun x => !(isJsWs x)), isJsWs x = false := by
            intro x hx
            have := List.mem_takeWhile_imp hx
            simpa using this
          have hcolrest : collapseWsAux false rest =
              rest.takeWhile (fun x => !(isJsWs x)) ++ '-' :: collapseWsAux true d' := by
            conv_lhs => rw [← hrest_eq]
            exact collapse_word d hd _ d' hw_all
          have hsd : splitWords (d :: d') = splitWords d' := splitWords_cons_ws d d' hd
          rw [hdw, hsd, hSS] at hsw
          constructor
          · rw [collapseWsAux_cons, if_neg (by simp [hc']), hcolrest, hsw,
              joinWords_cons₂, ← hSS, ← IH.1]
            simp
          · rw [collapseWsAux_cons, if_neg (by simp [hc']), hcolrest, hsw,
              joinWords_cons₂, ← hSS, ← IH.1, hlead]
            simp

theorem leadWs_dropWhile (m : List Char) : leadWs (m.dropWhile isJsWs) = false := by
  cases h : m.dropWhile isJsWs with
  | nil => rfl
  | cons a as =>
    have := dropWhile_head_false isJsWs m a as h
    simp [leadWs, this]

theorem jsTrim_trailWs (l : List Char) : trailWs (jsTrim l) = false := by
  unfold jsTrim trailWs
  rw [List.reverse_reverse]
  exact leadWs_dropWhile _

theorem jsTrim_leadWs (l : List Char) : leadWs (jsTrim l) = false := by
  unfold jsTrim
  rw [leadWs_eq_head, List.head?_reverse]
  cases hx : List.dropWhile isJsWs ((l.dropWhile isJsWs).reverse) with
  | nil => simp
  | cons a as =>
    cases hy : l.dropWhile isJsWs with
    | nil =>
      rw [hy] at hx
      simp at hx
    | cons c0 cs =>
      have hc0 : isJsWs c0 = false := dropWhile_head_false isJsWs l c0 cs hy
      have hsuf : List.dropWhile isJsWs ((l.dropWhile isJsWs).reverse) <:+
          (l.dropWhile isJsWs).reverse := List.dropWhile_suffix isJsWs
      obtain ⟨t, hts⟩ := hsuf
      have hgl : (a :: as).getLast? = ((l.dropWhile isJsWs).reverse).getLast? := by
        rw [← hts, hx]
        exact (List.getLast?_append_of_ne_nil t (by simp)).symm
      rw [List.getLast?_reverse, hy] at hgl
      rw [hgl]
      simpa using hc0

theorem slug_eq_specSlug (t : List Char) : slug t = specSlug t := by
  unfold slug specSlug
  have h := (collapseAux_splitWords
    (jsTrim ((t.map Char.toLower).filter isSlugChar)).length
    (jsTrim ((t.map Char.toLower).filter isSlugChar)) le_rfl
    (jsTrim_trailWs _)).2
  rw [jsTrim_leadWs] at h
  simpa using h

/-- C7: slug derivation is deterministic and follows the stated
pipeline: for every extracted heading, the anchor is `#` followed by
the title lower-cased, stripped of every character outside
`[a-z0-9\s-]`, trimmed, with internal whitespace runs collapsed to
single hyphens (`specSlug`); in particular the line
`## Getting Started!` yields level 2, title `Getting Started!` and
anchor `#getting-started`. -/
theorem heading_slug_pipeline :
    (∀ (line : List Char) (h : Heading), extractHeading line = some h →
      h.anchor = '#' :: specSlug h.title) ∧
    extractHeading ("## Getting Started!").toList =
      some ⟨2, ("Getting Started!").toList, ("#getting-started").toList⟩ := by
  constructor
  · intro line h hext
    unfold extractHeading at hext
    by_cases hn : 2 ≤ (line.takeWhile (fun c => c == '#')).length ∧
        (line.takeWhile (fun c => c == '#')).length ≤ 6
    · rw [if_pos hn] at hext
      obtain ⟨grp, hgrp, hmk⟩ := Option.map_eq_some'.mp hext
      rw [← hmk]
      simp [mkHeading, slug_eq_specSlug]
    · rw [if_neg hn] at hext
      cases hext
  · rfl

theorem heading_slug_pipeline_witness :
    (Heading.mk 2 ("Getting Started!").toList ("#getting-started").toList).anchor =
      '#' :: specSlug ("Getting Started!").toList :=
  heading_slug_pipeline.1 ("## Getting Started!").toList
    ⟨2, ("Getting Started!").toList, ("#getting-started").toList⟩
    heading_slug_pipeline.2
